import Mathlib

/-!
A verification development for the CoffeeNow matching tool
(source file coffee_now.py).

The Python source is shallowly embedded: strings are Lean strings,
Python dicts are association lists looked up with exact-key search,
Python sets are lists used up to membership (deduplicated where the
source iterates over them), and fallible code (list indexing that can
raise IndexError) returns Option, with none standing for the raised
exception aborting the run.

Python compares strings lexicographically by code point; the built-in
Lean string order does not reduce in the kernel, so the order is
re-implemented structurally on the underlying character lists.
-/

/-- Lexicographic comparison of character lists by code point, the order
Python uses on strings: the empty list is least, otherwise compare heads
and recurse on equal heads. -/
def listLe : List Char → List Char → Bool
  | [], _ => true
  | _ :: _, [] => false
  | a :: as, b :: bs => if a = b then listLe as bs else decide (a.toNat < b.toNat)

/-- The order on emails used by the tool (Python string comparison). -/
def emailLe (a b : String) : Prop := listLe a.data b.data = true

/-- Strict version of the email order. -/
def emailLt (a b : String) : Prop := emailLe a b ∧ a ≠ b

instance : DecidableRel emailLe := fun _ _ => instDecidableEqBool _ _

instance : DecidableRel emailLt := fun _ _ => instDecidableAnd

/-- Lower-casing of a string, character by character (Python str.lower,
restricted to the ASCII range that Char.toLower handles). -/
def lowerStr (s : String) : String := ⟨s.data.map Char.toLower⟩

/-!
## Data model (embedding of coffee_now.py)
-/

/-- Python dict.get for the department map: a missing key and a stored
null both come back as None, so both collapse to none here. -/
def dictGet (m : List (String × Option String)) (k : String) : Option String :=
  Option.join (List.lookup k m)

/-- Python dict.get(email, []) for the historical-matches map. -/
def histGet (m : List (String × List String)) (k : String) : List String :=
  (List.lookup k m).getD []

/-- Embedding of class User of coffee_now.py. -/
structure User where
  email : String
  department_id : Option String
  historical_matches : List String
deriving DecidableEq

/-- Embedding of User.get_possible_matches: the set difference
available_emails minus (self plus history), filtered by department
inequality, returned in ascending email order.  Iterating over a Python
set visits each distinct element once, modeled by dedup. -/
def User.get_possible_matches (u : User) (available_emails : List String)
    (user_departments : List (String × Option String)) : List String :=
  let previous_matches := u.email :: u.historical_matches
  List.insertionSort emailLe
    ((available_emails.dedup.filter (fun e => e ∉ previous_matches)).filter
      (fun e => dictGet user_departments e ≠ u.department_id))

/-- Construction of one User in Matcher.users: department and history
are looked up under the email exactly as it appears in the opt-in data. -/
def mkUser (hist : List (String × List String)) (deps : List (String × Option String))
    (email : String) : User :=
  { email := email, department_id := dictGet deps email, historical_matches := histGet hist email }

/-- Embedding of Matcher.users over a given (already sorted) email list. -/
def Matcher.users (availEmails : List String) (hist : List (String × List String))
    (deps : List (String × Option String)) : List User :=
  availEmails.map (mkUser hist deps)

/-- The loop body of Matcher.matches: walk the user list, skip users
already consumed as matches, otherwise take the head of the candidate
list (none models the IndexError raised by user_matches[0] on an empty
candidate list, which aborts the whole run). -/
def matchesAux (deps : List (String × Option String)) :
    List User → List String → List String → Option (List (String × String))
  | [], _, _ => some []
  | u :: rest, avail, already =>
    if u.email ∈ already then
      matchesAux deps rest avail already
    else
      match u.get_possible_matches avail deps with
      | [] => none
      | m :: _ =>
        (matchesAux deps rest (avail.filter (fun e => ¬(e = m ∨ e = u.email)))
            (already ++ [m])).map (fun ps => (u.email, m) :: ps)

/-- Embedding of Matcher.matches: the opt-in emails are sorted (as
Matcher.available_emails sorts them), turned into users, and greedily
paired.  Each output pair is (requester email, matched email). -/
def Matcher.matches (optIns : List String) (hist : List (String × List String))
    (deps : List (String × Option String)) : Option (List (String × String)) :=
  let avail := List.insertionSort emailLe optIns
  matchesAux deps (Matcher.users avail hist deps) avail []

/-!
## Opt-in CSV stage (Matcher.available_emails)
-/

/-- One row of the requests CSV, with the consent column and the
Email Address column. -/
structure RequestRow where
  consent : String
  email_address : String
deriving DecidableEq

/-- Substring test on character lists (Python operator in on strings). -/
def hasSubstr (pat : List Char) : List Char → Bool
  | [] => pat.isEmpty
  | c :: rest => List.isPrefixOf pat (c :: rest) || hasSubstr pat rest

/-- Embedding of Matcher.available_emails: keep rows whose lower-cased
consent cell contains yes, collect the email cells unchanged (the email
is NOT lower-cased here), and sort. -/
def Matcher.available_emails (rows : List RequestRow) : List String :=
  List.insertionSort emailLe
    ((rows.filter (fun r => hasSubstr "yes".data (lowerStr r.consent).data)).map
      (fun r => r.email_address))

/-!
## Output stage (Matcher.export_matches)

File effects are modeled as an event trace: Python opens (creates) the
file first, and only then touches self.matches, whose computation can
raise; header and rows are written afterwards.  An exception unwinds
past the with-block, leaving the already created file behind.
-/

/-- A file-system effect of export_matches. -/
inductive FileEvent where
  | create (name : String)
  | writeHeader (fields : List String)
  | writeRow (requester matched : String)
deriving DecidableEq

/-- Embedding of Matcher.export_matches as the trace of file effects it
performs.  The date string of datetime.now is a parameter.  Accessing
self.matches happens strictly after the file is opened for writing; if
the matching fails (or succeeds with an empty list, making matches[0]
fail), nothing more than the file creation happens. -/
def Matcher.export_matches (today : String) (optIns : List String)
    (hist : List (String × List String)) (deps : List (String × Option String)) :
    List FileEvent :=
  let csv_file_name := "CoffeeNow_" ++ today ++ ".csv"
  FileEvent.create csv_file_name ::
    match Matcher.matches optIns hist deps with
    | none => []
    | some [] => []
    | some (p :: ps) =>
      FileEvent.writeHeader ["Email Address", "Meet your Match"] ::
        (p :: ps).map (fun q => FileEvent.writeRow q.1 q.2)

/-!
## History ingestion (Matcher.historical_matches)
-/

/-- A character the Python regex class matches: word characters, dot and
underscore. -/
def isWordChar (c : Char) : Bool := c.isAlphanum || c == '_' || c == '.'

/-- Embedding of re.match on the pattern for an address at chownow.com:
a maximal run of word characters, then the at sign, chownow, one
arbitrary character (the unescaped dot of the pattern), then com;
anything may follow since re.match only anchors the start. -/
def emailSearchMatch (s : String) : Bool :=
  match s.data.dropWhile isWordChar with
  | '@' :: 'c' :: 'h' :: 'o' :: 'w' :: 'n' :: 'o' :: 'w' :: _ :: 'c' :: 'o' :: 'm' :: _ => true
  | _ => false

/-- The row loop of Matcher.historical_matches over one table: empty
rows are skipped; otherwise the cells at the first two located email
columns are read.  Fewer than two located columns, or a row too short,
is an IndexError (none). -/
def processRows (locs : List Nat) : List (List String) → Option (List (String × String))
  | [] => some []
  | row :: rest =>
    if row = [] then processRows locs rest
    else
      match locs[0]?, locs[1]? with
      | some l0, some l1 =>
        match row[l0]?, row[l1]? with
        | some c0, some c1 =>
          (processRows locs rest).map (fun ls => (lowerStr c0, lowerStr c1) :: ls)
        | _, _ => none
      | _, _ => none

/-- One table of the spreadsheet: the row at index 1 is scanned for
email-shaped cells (data[1] itself an IndexError when absent), then all
rows from index 1 on are processed. -/
def tableLinks (data : List (List String)) : Option (List (String × String)) :=
  match data[1]? with
  | none => none
  | some row1 =>
    processRows (((row1.enum).filter (fun p => emailSearchMatch p.2)).map Prod.fst)
      (data.drop 1)

/-- dict.setdefault(k, []) followed by append(v), preserving insertion
order of keys. -/
def addLink (m : List (String × List String)) (k v : String) : List (String × List String) :=
  match m with
  | [] => [(k, [v])]
  | (k1, vs) :: rest => if k1 = k then (k1, vs ++ [v]) :: rest else (k1, vs) :: addLink rest k v

/-- Embedding of Matcher.historical_matches: fold the per-table links
into the accumulating map; the first table that raises aborts the whole
build (none), and later tables are not reached. -/
def Matcher.historical_matches (tables : List (String × List (List String)))
    (acc : List (String × List String)) : Option (List (String × List String)) :=
  match tables with
  | [] => some acc
  | t :: rest =>
    match tableLinks t.2 with
    | none => none
    | some links =>
      Matcher.historical_matches rest (links.foldl (fun m l => addLink m l.1 l.2) acc)

/-!
## Derived shapes used to state the claims
-/

/-- Consecutive pairing of a list: the shape Matcher.matches produces on
a constraint-free pool; none on an odd tail, mirroring the IndexError on
the last leftover participant. -/
def pairUp : List String → Option (List (String × String))
  | [] => some []
  | [_] => none
  | a :: b :: rest => (pairUp rest).map (fun ps => (a, b) :: ps)

/-- All emails occurring in a pair list, requester and match alike. -/
def pairsFlat : List (String × String) → List String
  | [] => []
  | p :: ps => p.1 :: p.2 :: pairsFlat ps

/-- Feeding an output pair list back as a history map: each row of the
output CSV contributes a directed link from requester to match. -/
def histOfPairs (ps : List (String × String)) : List (String × List String) :=
  ps.map (fun p => (p.1, [p.2]))

/-!
## Helper lemmas
-/

theorem listLe_refl : ∀ l : List Char, listLe l l = true
  | [] => rfl
  | a :: as => by simp [listLe, listLe_refl as]

theorem listLe_total : ∀ a b : List Char, listLe a b = true ∨ listLe b a = true
  | [], _ => Or.inl rfl
  | _ :: _, [] => Or.inr rfl
  | a :: as, b :: bs => by
    by_cases hab : a = b
    · subst hab
      simpa [listLe] using listLe_total as bs
    · have hne : a.toNat ≠ b.toNat := fun h => hab (Char.ext (UInt32.ext h))
      rcases Nat.lt_or_ge a.toNat b.toNat with h | h
      · exact Or.inl (by simp [listLe, hab, h])
      · have : b.toNat < a.toNat := lt_of_le_of_ne h (Ne.symm hne)
        exact Or.inr (by simp [listLe, Ne.symm hab, this])

theorem listLe_antisymm : ∀ a b : List Char, listLe a b = true → listLe b a = true → a = b
  | [], [], _, _ => rfl
  | [], _ :: _, _, h2 => by simp [listLe] at h2
  | _ :: _, [], h1, _ => by simp [listLe] at h1
  | a :: as, b :: bs, h1, h2 => by
    by_cases hab : a = b
    · subst hab
      simp only [listLe, if_pos rfl] at h1 h2
      rw [listLe_antisymm as bs h1 h2]
    · simp only [listLe, if_neg hab, decide_eq_true_eq] at h1
      simp only [listLe, if_neg (Ne.symm hab), decide_eq_true_eq] at h2
      omega

theorem listLe_trans : ∀ a b c : List Char,
    listLe a b = true → listLe b c = true → listLe a c = true
  | [], _, _, _, _ => rfl
  | _ :: _, [], _, h1, _ => by simp [listLe] at h1
  | _ :: _, _ :: _, [], _, h2 => by simp [listLe] at h2
  | a :: as, b :: bs, c :: cs, h1, h2 => by
    by_cases hab : a = b
    · subst hab
      simp only [listLe, if_pos rfl] at h1
      by_cases hac : a = c
      · subst hac
        simp only [listLe, if_pos rfl] at h2 ⊢
        exact listLe_trans as bs cs h1 h2
      · simpa [listLe, hac] using h2
    · simp only [listLe, if_neg hab, decide_eq_true_eq] at h1
      by_cases hbc : b = c
      · subst hbc
        simp [listLe, hab, h1]
      · simp only [listLe, if_neg hbc, decide_eq_true_eq] at h2
        have hlt : a.toNat < c.toNat := Nat.lt_trans h1 h2
        have hac : a ≠ c := fun h => by subst h; omega
        simp [listLe, hac, hlt]

instance : IsRefl String emailLe := ⟨fun a => listLe_refl a.data⟩

instance : IsTotal String emailLe := ⟨fun a b => listLe_total a.data b.data⟩

instance : IsTrans String emailLe :=
  ⟨fun a b c h1 h2 => listLe_trans a.data b.data c.data h1 h2⟩

instance : IsAntisymm String emailLe :=
  ⟨fun a b h1 h2 => by
    have h := listLe_antisymm a.data b.data h1 h2
    cases a; cases b; exact congrArg String.mk h⟩

theorem emailLe_refl (a : String) : emailLe a a := listLe_refl a.data

theorem emailLe_total (a b : String) : emailLe a b ∨ emailLe b a :=
  listLe_total a.data b.data

theorem emailLe_antisymm {a b : String} (h1 : emailLe a b) (h2 : emailLe b a) : a = b := by
  have h := listLe_antisymm a.data b.data h1 h2
  cases a; cases b; exact congrArg String.mk h

theorem emailLt_asymm {a b : String} (h1 : emailLt a b) (h2 : emailLt b a) : False :=
  h1.2 (emailLe_antisymm h1.1 h2.1)

@[simp] theorem mkUser_email (hist : List (String × List String))
    (deps : List (String × Option String)) (e : String) : (mkUser hist deps e).email = e := rfl

@[simp] theorem mkUser_department (hist : List (String × List String))
    (deps : List (String × Option String)) (e : String) :
    (mkUser hist deps e).department_id = dictGet deps e := rfl

@[simp] theorem mkUser_hist (hist : List (String × List String))
    (deps : List (String × Option String)) (e : String) :
    (mkUser hist deps e).historical_matches = histGet hist e := rfl

theorem map_mkUser_email (hist : List (String × List String))
    (deps : List (String × Option String)) :
    ∀ l : List String, (l.map (mkUser hist deps)).map User.email = l
  | [] => rfl
  | a :: l => by simp [map_mkUser_email hist deps l]

theorem matchesAux_cons_skip (deps : List (String × Option String)) (u : User)
    (rest : List User) (avail already : List String) (h : u.email ∈ already) :
    matchesAux deps (u :: rest) avail already = matchesAux deps rest avail already := by
  simp [matchesAux, h]

theorem matchesAux_cons_none (deps : List (String × Option String)) (u : User)
    (rest : List User) (avail already : List String) (h1 : u.email ∉ already)
    (h2 : u.get_possible_matches avail deps = []) :
    matchesAux deps (u :: rest) avail already = none := by
  simp [matchesAux, h1, h2]

theorem matchesAux_cons_pair (deps : List (String × Option String)) (u : User)
    (rest : List User) (avail already : List String) (m : String) (tl : List String)
    (h1 : u.email ∉ already) (h2 : u.get_possible_matches avail deps = m :: tl) :
    matchesAux deps (u :: rest) avail already =
      (matchesAux deps rest (avail.filter (fun e => ¬(e = m ∨ e = u.email)))
          (already ++ [m])).map (fun ps => (u.email, m) :: ps) := by
  simp [matchesAux, h1, h2]

theorem gpm_sorted (u : User) (avail : List String) (deps : List (String × Option String)) :
    (u.get_possible_matches avail deps).Sorted emailLe := by
  unfold User.get_possible_matches
  exact List.sorted_insertionSort emailLe _

theorem mem_gpm {u : User} {avail : List String} {deps : List (String × Option String)}
    {m : String} (h : m ∈ u.get_possible_matches avail deps) :
    m ∈ avail ∧ m ≠ u.email ∧ m ∉ u.historical_matches ∧
      dictGet deps m ≠ u.department_id := by
  unfold User.get_possible_matches at h
  rw [List.mem_insertionSort] at h
  simp only [List.mem_filter, List.mem_dedup, decide_eq_true_eq, List.mem_cons, not_or] at h
  exact ⟨h.1.1, h.1.2.1, h.1.2.2, h.2⟩

theorem filter_remove_two {a b : String} {l : List String} (ha : a ∉ l) (hb : b ∉ l) :
    (a :: b :: l).filter (fun e => ¬(e = b ∨ e = a)) = l := by
  rw [List.filter_cons, List.filter_cons, if_neg (by simp), if_neg (by simp)]
  exact List.filter_eq_self.mpr (fun x hx => by
    simp only [decide_eq_true_eq, not_or]
    exact ⟨fun h => hb (h ▸ hx), fun h => ha (h ▸ hx)⟩)

theorem gpm_mkUser_cons (deps : List (String × Option String))
    (hist : List (String × List String)) (a : String) (l : List String)
    (hnd : (a :: l).Nodup) (hsorted : (a :: l).Sorted emailLe)
    (hdept : ∀ b ∈ l, dictGet deps b ≠ dictGet deps a)
    (hhist : histGet hist a = []) :
    (mkUser hist deps a).get_possible_matches (a :: l) deps = l := by
  have ha_notmem : a ∉ l := (List.nodup_cons.mp hnd).1
  unfold User.get_possible_matches
  dsimp only
  rw [List.dedup_eq_self.mpr hnd]
  have h1 : (a :: l).filter
      (fun e => e ∉ (mkUser hist deps a).email :: (mkUser hist deps a).historical_matches) = l := by
    rw [List.filter_cons, if_neg (by simp)]
    exact List.filter_eq_self.mpr (fun x hx => by
      simp only [mkUser_email, mkUser_hist, hhist, decide_eq_true_eq, List.mem_cons,
        List.not_mem_nil, not_or]
      exact ⟨fun h => ha_notmem (h ▸ hx), fun h => h⟩)
  rw [h1]
  have h2 : l.filter (fun e => dictGet deps e ≠ (mkUser hist deps a).department_id) = l :=
    List.filter_eq_self.mpr (fun x hx => by
      simp only [mkUser_department, decide_eq_true_eq]
      exact hdept x hx)
  rw [h2]
  exact List.Sorted.insertionSort_eq (List.Sorted.of_cons hsorted)

theorem pairUp_some : ∀ (l : List String) (ps : List (String × String)),
    pairUp l = some ps → pairsFlat ps = l ∧ 2 * ps.length = l.length
  | [], ps, h => by
      simp only [pairUp, Option.some.injEq] at h
      subst h
      simp [pairsFlat]
  | [_], ps, h => by simp [pairUp] at h
  | a :: b :: rest, ps, h => by
      simp only [pairUp, Option.map_eq_some'] at h
      obtain ⟨ps', h1, rfl⟩ := h
      obtain ⟨hf, hl⟩ := pairUp_some rest ps' h1
      refine ⟨by simp [pairsFlat, hf], ?_⟩
      simp only [List.length_cons]
      omega

theorem pairUp_even : ∀ l : List String, l.length % 2 = 0 → ∃ ps, pairUp l = some ps
  | [], _ => ⟨[], rfl⟩
  | [_], h => by simp at h
  | a :: b :: rest, h => by
      have h2 : rest.length % 2 = 0 := by simp only [List.length_cons] at h; omega
      obtain ⟨ps, hp⟩ := pairUp_even rest h2
      exact ⟨(a, b) :: ps, by simp [pairUp, hp]⟩

theorem pairUp_odd : ∀ l : List String, l.length % 2 = 1 → pairUp l = none
  | [], h => by simp at h
  | [_], _ => rfl
  | a :: b :: rest, h => by
      have h2 : rest.length % 2 = 1 := by simp only [List.length_cons] at h; omega
      simp [pairUp, pairUp_odd rest h2]

theorem matchesAux_pairUp (deps : List (String × Option String)) :
    ∀ (l already : List String),
    List.Sorted emailLe l → l.Nodup →
    (∀ e ∈ l, e ∉ already) →
    (∀ a ∈ l, ∀ b ∈ l, a ≠ b → dictGet deps a ≠ dictGet deps b) →
    matchesAux deps (l.map (mkUser [] deps)) l already = pairUp l
  | [], _, _, _, _, _ => rfl
  | [a], already, _, _, hal, _ => by
      have hna : a ∉ already := hal a (by simp)
      have hg : (mkUser [] deps a).get_possible_matches [a] deps = [] := by
        have h := gpm_mkUser_cons deps [] a [] (by simp) (by simp) (by simp) rfl
        simpa using h
      simp only [List.map_cons, List.map_nil]
      rw [matchesAux_cons_none deps _ _ _ _ hna hg]
      rfl
  | a :: b :: rest, already, hsort, hnd, hal, hdept => by
      have hna : a ∉ already := hal a (by simp)
      have hab : a ≠ b := by
        intro h
        exact (List.nodup_cons.mp hnd).1 (h ▸ List.mem_cons_self b rest)
      have ha_rest : a ∉ rest := fun h => (List.nodup_cons.mp hnd).1 (List.mem_cons_of_mem b h)
      have hb_rest : b ∉ rest := (List.nodup_cons.mp (List.nodup_cons.mp hnd).2).1
      have hg : (mkUser [] deps a).get_possible_matches (a :: b :: rest) deps = b :: rest := by
        refine gpm_mkUser_cons deps [] a (b :: rest) hnd hsort ?_ rfl
        intro x hx
        refine hdept x (List.mem_cons_of_mem a hx) a (List.mem_cons_self a _) ?_
        intro h
        exact (List.nodup_cons.mp hnd).1 (h ▸ hx)
      simp only [List.map_cons]
      rw [matchesAux_cons_pair deps _ _ _ _ b rest hna hg]
      rw [mkUser_email]
      rw [filter_remove_two ha_rest hb_rest]
      rw [matchesAux_cons_skip deps _ _ _ _ (by simp : (mkUser [] deps b).email ∈ already ++ [b])]
      have hrec := matchesAux_pairUp deps rest (already ++ [b])
        (List.Sorted.of_cons (List.Sorted.of_cons hsort))
        (List.nodup_cons.mp (List.nodup_cons.mp hnd).2).2
        (fun e he => by
          simp only [List.mem_append, List.mem_singleton, not_or]
          exact ⟨hal e (List.mem_cons_of_mem a (List.mem_cons_of_mem b he)),
            fun h => hb_rest (h ▸ he)⟩)
        (fun x hx y hy hxy => hdept x (List.mem_cons_of_mem a (List.mem_cons_of_mem b hx))
          y (List.mem_cons_of_mem a (List.mem_cons_of_mem b hy)) hxy)
      rw [hrec]
      rfl

theorem matchesAux_pairs_sound (deps : List (String × Option String))
    (hist : List (String × List String)) :
    ∀ (emails avail already : List String) (ps : List (String × String)),
    matchesAux deps (emails.map (mkUser hist deps)) avail already = some ps →
    ∀ p ∈ ps, p.1 ≠ p.2 ∧ p.2 ∉ histGet hist p.1 ∧
      dictGet deps p.2 ≠ dictGet deps p.1 := by
  intro emails
  induction emails with
  | nil =>
    intro avail already ps h p hp
    simp only [List.map_nil, matchesAux, Option.some.injEq] at h
    subst h
    simp at hp
  | cons e rest ih =>
    intro avail already ps h p hp
    rw [List.map_cons] at h
    by_cases hmem : (mkUser hist deps e).email ∈ already
    · rw [matchesAux_cons_skip deps _ _ _ _ hmem] at h
      exact ih avail already ps h p hp
    · cases hg : (mkUser hist deps e).get_possible_matches avail deps with
      | nil =>
        rw [matchesAux_cons_none deps _ _ _ _ hmem hg] at h
        cases h
      | cons m tl =>
        rw [matchesAux_cons_pair deps _ _ _ _ m tl hmem hg] at h
        rw [Option.map_eq_some'] at h
        obtain ⟨ps', h1, rfl⟩ := h
        rcases List.mem_cons.mp hp with rfl | hp'
        · have hm := mem_gpm (show m ∈ (mkUser hist deps e).get_possible_matches avail deps by
            rw [hg]; exact List.mem_cons_self m tl)
          simp only [mkUser_email, mkUser_hist, mkUser_department] at hm
          exact ⟨fun h => hm.2.1 h.symm, hm.2.2.1, hm.2.2.2⟩
        · exact ih _ _ ps' h1 p hp'

theorem matchesAux_fst (deps : List (String × Option String)) :
    ∀ (users : List User) (avail already : List String) (ps : List (String × String)),
    matchesAux deps users avail already = some ps →
    (∀ p ∈ ps, p.1 ∈ users.map User.email) ∧
    ((users.map User.email).Nodup → (ps.map Prod.fst).Nodup) := by
  intro users
  induction users with
  | nil =>
    intro avail already ps h
    simp only [matchesAux, Option.some.injEq] at h
    subst h
    simp
  | cons u rest ih =>
    intro avail already ps h
    by_cases hmem : u.email ∈ already
    · rw [matchesAux_cons_skip deps _ _ _ _ hmem] at h
      obtain ⟨hsub, hnd⟩ := ih avail already ps h
      refine ⟨fun p hp => List.mem_cons_of_mem _ (hsub p hp), fun h2 => ?_⟩
      exact hnd (List.nodup_cons.mp h2).2
    · cases hg : u.get_possible_matches avail deps with
      | nil =>
        rw [matchesAux_cons_none deps _ _ _ _ hmem hg] at h
        cases h
      | cons m tl =>
        rw [matchesAux_cons_pair deps _ _ _ _ m tl hmem hg] at h
        rw [Option.map_eq_some'] at h
        obtain ⟨ps', h1, rfl⟩ := h
        obtain ⟨hsub, hnd⟩ := ih _ _ ps' h1
        constructor
        · intro p hp
          rcases List.mem_cons.mp hp with rfl | hp'
          · exact List.mem_cons_self _ _
          · exact List.mem_cons_of_mem _ (hsub p hp')
        · intro h2
          rw [List.map_cons]
          rw [List.nodup_cons]
          refine ⟨fun hin => ?_, hnd (List.nodup_cons.mp h2).2⟩
          obtain ⟨q, hq, hq1⟩ := List.mem_map.mp hin
          have hq2 : q.1 ∈ List.map User.email rest := hsub q hq
          rw [show q.1 = u.email from hq1] at hq2
          exact (List.nodup_cons.mp h2).1 hq2

theorem matchesAux_lt (deps : List (String × Option String))
    (hist : List (String × List String)) :
    ∀ (emails avail already : List String) (ps : List (String × String)),
    List.Sorted emailLe emails → emails.Nodup →
    (∀ e ∈ avail, e ∈ emails) →
    (∀ e ∈ already, e ∉ avail) →
    matchesAux deps (emails.map (mkUser hist deps)) avail already = some ps →
    ∀ p ∈ ps, emailLt p.1 p.2 := by
  intro emails
  induction emails with
  | nil =>
    intro avail already ps _ _ _ _ h p hp
    simp only [List.map_nil, matchesAux, Option.some.injEq] at h
    subst h
    simp at hp
  | cons e rest ih =>
    intro avail already ps hsort hnd havail halready h p hp
    rw [List.map_cons] at h
    by_cases hmem : (mkUser hist deps e).email ∈ already
    · rw [matchesAux_cons_skip deps _ _ _ _ hmem] at h
      refine ih avail already ps (List.Sorted.of_cons hsort) (List.nodup_cons.mp hnd).2
        (fun x hx => ?_) halready h p hp
      rcases List.mem_cons.mp (havail x hx) with rfl | hxr
      · exact absurd hx (halready x (by simpa using hmem))
      · exact hxr
    · cases hg : (mkUser hist deps e).get_possible_matches avail deps with
      | nil =>
        rw [matchesAux_cons_none deps _ _ _ _ hmem hg] at h
        cases h
      | cons m tl =>
        rw [matchesAux_cons_pair deps _ _ _ _ m tl hmem hg] at h
        rw [Option.map_eq_some'] at h
        obtain ⟨ps', h1, rfl⟩ := h
        have hm := mem_gpm (show m ∈ (mkUser hist deps e).get_possible_matches avail deps by
          rw [hg]; exact List.mem_cons_self m tl)
        simp only [mkUser_email] at hm
        have hm_rest : m ∈ rest := by
          rcases List.mem_cons.mp (havail m hm.1) with rfl | hr
          · exact absurd rfl hm.2.1
          · exact hr
        rcases List.mem_cons.mp hp with rfl | hp'
        · exact ⟨List.rel_of_sorted_cons hsort m hm_rest,
            fun h => hm.2.1 h.symm⟩
        · refine ih _ _ ps' (List.Sorted.of_cons hsort) (List.nodup_cons.mp hnd).2
            (fun x hx => ?_) (fun x hx => ?_) h1 p hp'
          · obtain ⟨hx1, hx2⟩ := List.mem_filter.mp hx
            simp only [decide_eq_true_eq, not_or] at hx2
            rcases List.mem_cons.mp (havail x hx1) with rfl | hr
            · exact absurd rfl hx2.2
            · exact hr
          · rcases List.mem_append.mp hx with hx1 | hx1
            · intro hin
              exact halready x hx1 (List.mem_filter.mp hin).1
            · rw [List.mem_singleton] at hx1
              subst hx1
              intro hin
              have := (List.mem_filter.mp hin).2
              simp at this

theorem insertionSort_perm_eq {l1 l2 : List String} (h : l1.Perm l2) :
    List.insertionSort emailLe l1 = List.insertionSort emailLe l2 :=
  List.eq_of_perm_of_sorted
    ((List.perm_insertionSort emailLe l1).trans (h.trans (List.perm_insertionSort emailLe l2).symm))
    (List.sorted_insertionSort emailLe l1) (List.sorted_insertionSort emailLe l2)

theorem gpm_perm (u : User) (deps : List (String × Option String))
    {a1 a2 : List String} (h : a1.Perm a2) :
    u.get_possible_matches a1 deps = u.get_possible_matches a2 deps := by
  unfold User.get_possible_matches
  exact insertionSort_perm_eq ((h.dedup.filter _).filter _)

theorem histGet_histOfPairs : ∀ (ps : List (String × String)) (r m : String),
    (ps.map Prod.fst).Nodup → (r, m) ∈ ps → histGet (histOfPairs ps) r = [m]
  | [], _, _, _, h => by cases h
  | q :: ps, r, m, hnd, hmem => by
      rw [List.map_cons, List.nodup_cons] at hnd
      rcases List.mem_cons.mp hmem with heq | hmem'
      · rw [← heq]
        simp [histOfPairs, histGet, List.lookup]
      · have hq : r ≠ q.1 := by
          intro he
          refine hnd.1 ?_
          rw [← he]
          exact List.mem_map.mpr ⟨(r, m), hmem', rfl⟩
        have hrec := histGet_histOfPairs ps r m hnd.2 hmem'
        simpa [histOfPairs, histGet, List.lookup, beq_eq_false_iff_ne.mpr hq] using hrec

theorem matches_def (optIns : List String) (hist : List (String × List String))
    (deps : List (String × Option String)) :
    Matcher.matches optIns hist deps =
      matchesAux deps ((List.insertionSort emailLe optIns).map (mkUser hist deps))
        (List.insertionSort emailLe optIns) [] := rfl

/-!
## Claims
-/

/-- Claim C1, counterexample: on the 3-element pool with pairwise
distinct departments and no history, the claimed behavior is one pair
and one accepted leftover; the code instead reaches the last leftover
participant, gets an empty candidate list, and raises (none). -/
theorem C1_counterexample :
    Matcher.matches ["a@x.com", "b@x.com", "c@x.com"] []
      [("a@x.com", some "1"), ("b@x.com", some "2"), ("c@x.com", some "3")] = none := by
  decide

/-- Claim C1 (amended): for a non-empty opt-in pool without duplicate
emails, with pairwise distinct departments and no history, the run
succeeds exactly when the pool size N is even, producing N / 2 pairs in
which every email appears at most once; for odd N the run fails with an
IndexError on the leftover participant instead of accepting it. -/
theorem C1_matches_even_odd (optIns : List String) (deps : List (String × Option String))
    (_hne : optIns ≠ []) (hnd : optIns.Nodup)
    (hdept : ∀ a ∈ optIns, ∀ b ∈ optIns, a ≠ b → dictGet deps a ≠ dictGet deps b) :
    (optIns.length % 2 = 0 →
      ∃ ps, Matcher.matches optIns [] deps = some ps ∧
        2 * ps.length = optIns.length ∧ (pairsFlat ps).Nodup) ∧
    (optIns.length % 2 = 1 → Matcher.matches optIns [] deps = none) := by
  have hperm := List.perm_insertionSort emailLe optIns
  have hSnd : (List.insertionSort emailLe optIns).Nodup := hperm.nodup_iff.mpr hnd
  have hmain : Matcher.matches optIns [] deps =
      pairUp (List.insertionSort emailLe optIns) := by
    rw [matches_def]
    exact matchesAux_pairUp deps _ []
      (List.sorted_insertionSort emailLe optIns) hSnd
      (fun e _ he => (List.not_mem_nil e he))
      (fun a ha b hb hab => hdept a (hperm.mem_iff.mp ha) b (hperm.mem_iff.mp hb) hab)
  have hlen : (List.insertionSort emailLe optIns).length = optIns.length := hperm.length_eq
  constructor
  · intro heven
    obtain ⟨ps, hp⟩ := pairUp_even _ (by rw [hlen]; exact heven)
    obtain ⟨hflat, hl⟩ := pairUp_some _ ps hp
    rw [hlen] at hl
    refine ⟨ps, by rw [hmain, hp], hl, ?_⟩
    rw [hflat]
    exact hSnd
  · intro hodd
    rw [hmain, pairUp_odd _ (by rw [hlen]; exact hodd)]

theorem C1_matches_even_odd_witness :
    ∃ ps, Matcher.matches ["b@x.com", "a@x.com"] []
        [("a@x.com", some "1"), ("b@x.com", some "2")] = some ps ∧
      2 * ps.length = 2 ∧ (pairsFlat ps).Nodup :=
  (C1_matches_even_odd ["b@x.com", "a@x.com"]
    [("a@x.com", some "1"), ("b@x.com", some "2")]
    (by decide) (by decide) (by decide)).1 (by decide)

/-- Claim C2: the Candidate Resolver is a total function that can
return the empty ordered sequence (shown on the empty pool), and when
it is empty for a user not already consumed as a match, the whole
Matcher run aborts with none (the IndexError of user_matches[0]), so no
partial pairing list is returned. -/
theorem C2_resolver_empty_matcher_fails :
    (∀ (u : User) (deps : List (String × Option String)),
      u.get_possible_matches [] deps = []) ∧
    (∀ (deps : List (String × Option String)) (u : User) (rest : List User)
      (avail already : List String),
      u.email ∉ already → u.get_possible_matches avail deps = [] →
      matchesAux deps (u :: rest) avail already = none) :=
  ⟨fun _ _ => rfl,
   fun deps u rest avail already h1 h2 => matchesAux_cons_none deps u rest avail already h1 h2⟩

theorem C2_resolver_empty_matcher_fails_witness :
    matchesAux [] [mkUser [] [] "a@x.com"] ["a@x.com"] [] = none :=
  C2_resolver_empty_matcher_fails.2 [] (mkUser [] [] "a@x.com") [] ["a@x.com"] []
    (by decide) (by decide)

/-- Claim C3: in every produced pair the departments of the two members
differ under exact Option equality, so no pair shares a non-null
department and two participants with unknown (null) departments are
never paired; and on the concrete pool of two participants with an
empty department map the run fails (exhausted candidates for the first
user). -/
theorem C3_no_shared_department :
    (∀ (optIns : List String) (hist : List (String × List String))
      (deps : List (String × Option String)) (ps : List (String × String)),
      Matcher.matches optIns hist deps = some ps →
      ∀ p ∈ ps, dictGet deps p.1 ≠ dictGet deps p.2) ∧
    Matcher.matches ["a@x.com", "b@x.com"] [] [] = none := by
  constructor
  · intro optIns hist deps ps h p hp
    rw [matches_def] at h
    exact fun he => (matchesAux_pairs_sound deps hist _ _ _ ps h p hp).2.2 he.symm
  · decide

theorem C3_no_shared_department_witness :
    dictGet [("a@x.com", some "1"), ("b@x.com", some "2")] "a@x.com" ≠
      dictGet [("a@x.com", some "1"), ("b@x.com", some "2")] "b@x.com" :=
  C3_no_shared_department.1 ["a@x.com", "b@x.com"] []
    [("a@x.com", some "1"), ("b@x.com", some "2")] [("a@x.com", "b@x.com")] (by decide)
    ("a@x.com", "b@x.com") (by decide)

/-- Claim C10: in every pair of a successful run over a duplicate-free
opt-in pool, the requester email is strictly smaller than the matched
email in the lexicographic email order: users are processed in
ascending order and everything smaller has left the pool already. -/
theorem C10_requester_lt_match (optIns : List String) (hist : List (String × List String))
    (deps : List (String × Option String)) (ps : List (String × String))
    (hnd : optIns.Nodup) (h : Matcher.matches optIns hist deps = some ps) :
    ∀ p ∈ ps, emailLt p.1 p.2 := by
  rw [matches_def] at h
  have hperm := List.perm_insertionSort emailLe optIns
  exact matchesAux_lt deps hist _ _ _ ps (List.sorted_insertionSort emailLe optIns)
    (hperm.nodup_iff.mpr hnd) (fun e he => he)
    (fun e he => (List.not_mem_nil e he).elim) h

theorem C10_requester_lt_match_witness :
    emailLt "a@x.com" "b@x.com" :=
  C10_requester_lt_match ["b@x.com", "a@x.com"] []
    [("a@x.com", some "1"), ("b@x.com", some "2")] [("a@x.com", "b@x.com")]
    (by decide) (by decide) ("a@x.com", "b@x.com") (by decide)

theorem matches_pairs_sound (optIns : List String) (hist : List (String × List String))
    (deps : List (String × Option String)) (ps : List (String × String))
    (h : Matcher.matches optIns hist deps = some ps) :
    ∀ p ∈ ps, p.1 ≠ p.2 ∧ p.2 ∉ histGet hist p.1 ∧
      dictGet deps p.2 ≠ dictGet deps p.1 := by
  rw [matches_def] at h
  exact matchesAux_pairs_sound deps hist _ _ _ ps h

theorem matches_lt (optIns : List String) (hist : List (String × List String))
    (deps : List (String × Option String)) (ps : List (String × String))
    (hnd : optIns.Nodup) (h : Matcher.matches optIns hist deps = some ps) :
    ∀ p ∈ ps, emailLt p.1 p.2 := by
  rw [matches_def] at h
  have hperm := List.perm_insertionSort emailLe optIns
  exact matchesAux_lt deps hist _ _ _ ps (List.sorted_insertionSort emailLe optIns)
    (hperm.nodup_iff.mpr hnd) (fun e he => he)
    (fun e he => (List.not_mem_nil e he).elim) h

theorem matches_fst_nodup (optIns : List String) (hist : List (String × List String))
    (deps : List (String × Option String)) (ps : List (String × String))
    (hnd : optIns.Nodup) (h : Matcher.matches optIns hist deps = some ps) :
    (ps.map Prod.fst).Nodup := by
  rw [matches_def] at h
  apply (matchesAux_fst deps _ _ _ ps h).2
  rw [map_mkUser_email]
  exact (List.perm_insertionSort emailLe optIns).nodup_iff.mpr hnd

/-- Claim C4, counterexample: opt-in emails are not lower-cased by the
opt-in stage, and the history exclusion compares exact strings, so a
participant whose normalized identity is c@x.com with a@x.com in its
history entry is still paired with a@x.com when the opt-in data spells
it C@x.com. -/
theorem C4_counterexample :
    Matcher.available_emails [⟨"Yes!", "C@x.com"⟩, ⟨"Yes!", "a@x.com"⟩] =
      ["C@x.com", "a@x.com"] ∧
    Matcher.matches ["C@x.com", "a@x.com"] [("c@x.com", ["a@x.com"])]
      [("a@x.com", some "D1"), ("c@x.com", some "D2")] = some [("C@x.com", "a@x.com")] ∧
    lowerStr "C@x.com" = "c@x.com" ∧
    "a@x.com" ∈ histGet [("c@x.com", ["a@x.com"])] "c@x.com" := by decide

/-- Claim C4 (amended): in every produced pair the matched email is
absent from the history entry stored under the exact requester email
string; the comparison is case-sensitive, so exclusion regardless of
letter case does not hold (history and roster keys are lower-cased on
ingestion, opt-in emails are not). -/
theorem C4_history_exclusion_exact (optIns : List String)
    (hist : List (String × List String)) (deps : List (String × Option String))
    (ps : List (String × String)) (h : Matcher.matches optIns hist deps = some ps) :
    ∀ p ∈ ps, p.2 ∉ histGet hist p.1 :=
  fun p hp => (matches_pairs_sound optIns hist deps ps h p hp).2.1

theorem C4_history_exclusion_exact_witness :
    "b@x.com" ∉ histGet [("a@x.com", ["c@x.com"])] "a@x.com" :=
  C4_history_exclusion_exact ["a@x.com", "b@x.com"] [("a@x.com", ["c@x.com"])]
    [("a@x.com", some "1"), ("b@x.com", some "2")] [("a@x.com", "b@x.com")]
    (by decide) ("a@x.com", "b@x.com") (by decide)

/-- Claim C5, counterexample: on a failing input the matching aborts,
yet the event trace of export_matches still begins with the creation of
the output file, so on failure an (empty) output file exists. -/
theorem C5_counterexample :
    Matcher.matches ["a@x.com", "b@x.com"] [] [] = none ∧
    Matcher.export_matches "20260101" ["a@x.com", "b@x.com"] [] [] =
      [FileEvent.create "CoffeeNow_20260101.csv"] := by decide

/-- Claim C5 (amended): export_matches opens (creates) the output file
before the pairing list is computed; whenever the pairing computation
fails, the trace consists of exactly the file creation, so a created
but empty output file is left behind rather than no file at all. -/
theorem C5_file_created_before_matching (today : String) (optIns : List String)
    (hist : List (String × List String)) (deps : List (String × Option String))
    (h : Matcher.matches optIns hist deps = none) :
    Matcher.export_matches today optIns hist deps =
      [FileEvent.create ("CoffeeNow_" ++ today ++ ".csv")] := by
  unfold Matcher.export_matches
  rw [h]

theorem C5_file_created_before_matching_witness :
    Matcher.export_matches "20270101" ["a@x.com", "b@x.com"] [] [] =
      [FileEvent.create ("CoffeeNow_" ++ "20270101" ++ ".csv")] :=
  C5_file_created_before_matching "20270101" ["a@x.com", "b@x.com"] [] [] (by decide)

/-- Claim C6: the Matcher always takes the head of the sorted candidate
list, which is minimal in the email order among all eligible
candidates; on Scenario C (a, b, c, d with distinct departments and b
in the history of a) the output is exactly (a, c) then (b, d). -/
theorem C6_alphabetical_tie_break :
    (Matcher.matches ["a@x.com", "b@x.com", "c@x.com", "d@x.com"]
        [("a@x.com", ["b@x.com"])]
        [("a@x.com", some "1"), ("b@x.com", some "2"), ("c@x.com", some "3"),
          ("d@x.com", some "4")] =
      some [("a@x.com", "c@x.com"), ("b@x.com", "d@x.com")]) ∧
    (∀ (u : User) (avail : List String) (deps : List (String × Option String))
      (m : String) (tl : List String),
      u.get_possible_matches avail deps = m :: tl → ∀ c ∈ m :: tl, emailLe m c) ∧
    (∀ (deps : List (String × Option String)) (u : User) (rest : List User)
      (avail already : List String) (m : String) (tl : List String),
      u.email ∉ already → u.get_possible_matches avail deps = m :: tl →
      matchesAux deps (u :: rest) avail already =
        (matchesAux deps rest (avail.filter (fun e => ¬(e = m ∨ e = u.email)))
            (already ++ [m])).map (fun ps => (u.email, m) :: ps)) := by
  refine ⟨by decide, ?_, ?_⟩
  · intro u avail deps m tl hg c hc
    have hs : List.Sorted emailLe (m :: tl) := hg ▸ gpm_sorted u avail deps
    rcases List.mem_cons.mp hc with rfl | hc2
    · exact emailLe_refl _
    · exact List.rel_of_sorted_cons hs c hc2
  · exact fun deps u rest avail already m tl h1 h2 =>
      matchesAux_cons_pair deps u rest avail already m tl h1 h2

theorem C6_alphabetical_tie_break_witness :
    emailLe "c@x.com" "d@x.com" :=
  C6_alphabetical_tie_break.2.1
    (mkUser [("a@x.com", ["b@x.com"])]
      [("a@x.com", some "1"), ("b@x.com", some "2"), ("c@x.com", some "3"),
        ("d@x.com", some "4")] "a@x.com")
    ["a@x.com", "b@x.com", "c@x.com", "d@x.com"]
    [("a@x.com", some "1"), ("b@x.com", some "2"), ("c@x.com", some "3"),
      ("d@x.com", some "4")]
    "c@x.com" ["d@x.com"] (by decide) "d@x.com" (by decide)

/-- Claim C7: the matching is deterministic and does not depend on the
order in which the opt-in pool or the available set is presented: the
Candidate Resolver returns the same ordered sequence on any two
enumerations of the same available set, and the Matcher returns the
same pair sequence on any two orderings of the same opt-in pool; in
particular two runs on identical inputs agree. -/
theorem C7_deterministic :
    (∀ (u : User) (deps : List (String × Option String)) (a1 a2 : List String),
      a1.Perm a2 → u.get_possible_matches a1 deps = u.get_possible_matches a2 deps) ∧
    (∀ (optIns1 optIns2 : List String) (hist : List (String × List String))
      (deps : List (String × Option String)), optIns1.Perm optIns2 →
      Matcher.matches optIns1 hist deps = Matcher.matches optIns2 hist deps) := by
  refine ⟨fun u deps a1 a2 h => gpm_perm u deps h, ?_⟩
  intro optIns1 optIns2 hist deps h
  rw [matches_def, matches_def, insertionSort_perm_eq h]

theorem C7_deterministic_witness :
    Matcher.matches ["b@x.com", "a@x.com"] [] [("a@x.com", some "1"), ("b@x.com", some "2")] =
      Matcher.matches ["a@x.com", "b@x.com"] [] [("a@x.com", some "1"), ("b@x.com", some "2")] :=
  C7_deterministic.2 ["b@x.com", "a@x.com"] ["a@x.com", "b@x.com"] []
    [("a@x.com", some "1"), ("b@x.com", some "2")] (by decide)

theorem processRows_short : ∀ (locs : List Nat) (rows : List (List String)),
    locs.length < 2 → (∃ row ∈ rows, row ≠ []) → processRows locs rows = none
  | locs, [], _, hex => by
      obtain ⟨r, hr, _⟩ := hex
      cases hr
  | locs, row :: rest, hlen, hex => by
      by_cases hrow : row = []
      · rw [processRows, if_pos hrow]
        apply processRows_short locs rest hlen
        obtain ⟨r, hr, hne⟩ := hex
        rcases List.mem_cons.mp hr with rfl | hr2
        · exact absurd hrow hne
        · exact ⟨r, hr2, hne⟩
      · have h1 : locs[1]? = none := by
          rw [List.getElem?_eq_none_iff]
          omega
        rw [processRows, if_neg hrow, h1]
        rcases locs[0]? with _ | l0 <;> rfl

/-- Claim C8, counterexample: a table whose scanned row has no
email-shaped cells does not silently contribute nothing: the build of
the whole historical-matches map fails (none), and the intact second
table is never processed. -/
theorem C8_counterexample :
    Matcher.historical_matches
      [("S1", [["x", "y"], ["Name", "Date"]]),
       ("S2", [["q", "r"], ["a@chownow.com", "b@chownow.com"]])] [] = none ∧
    Matcher.historical_matches
      [("S2", [["q", "r"], ["a@chownow.com", "b@chownow.com"]])] [] =
      some [("a@chownow.com", ["b@chownow.com"])] := by decide

/-- Claim C8 (amended): when the first table of the history source
fails (in particular when its scanned row yields fewer than two email
column locations and some row from index 1 on is non-empty, which is
the IndexError on email_locations), the whole historical-matches build
fails and the remaining tables are not processed; such a table
contributes nothing only when every row from index 1 on is empty. -/
theorem C8_malformed_table_fails :
    (∀ (name : String) (data : List (List String))
      (rest : List (String × List (List String))) (acc : List (String × List String)),
      tableLinks data = none →
      Matcher.historical_matches ((name, data) :: rest) acc = none) ∧
    (∀ (data : List (List String)) (row1 : List String),
      data[1]? = some row1 →
      ((row1.enum.filter (fun p => emailSearchMatch p.2)).map Prod.fst).length < 2 →
      (∃ row ∈ data.drop 1, row ≠ []) →
      tableLinks data = none) := by
  constructor
  · intro name data rest acc h
    simp [Matcher.historical_matches, h]
  · intro data row1 hdata hlen hex
    unfold tableLinks
    rw [hdata]
    exact processRows_short _ _ hlen hex

theorem C8_malformed_table_fails_witness :
    Matcher.historical_matches
      [("Sheet1", [["h1", "h2"], ["Name", "Date"], ["Alice", "Bob"]])] [] = none :=
  C8_malformed_table_fails.1 "Sheet1" [["h1", "h2"], ["Name", "Date"], ["Alice", "Bob"]] [] []
    (C8_malformed_table_fails.2 [["h1", "h2"], ["Name", "Date"], ["Alice", "Bob"]]
      ["Name", "Date"] (by decide) (by decide) ⟨["Name", "Date"], by decide, by decide⟩)

/-- Claim C9: feeding the pairs of a successful first run back as the
history map of a second run over the same duplicate-free pool
guarantees, whenever the second run also succeeds, that no pair of the
first run recurs in the second in either orientation. -/
theorem C9_round_trip (optIns : List String) (hist1 : List (String × List String))
    (deps : List (String × Option String)) (ps1 ps2 : List (String × String))
    (hnd : optIns.Nodup)
    (h1 : Matcher.matches optIns hist1 deps = some ps1)
    (h2 : Matcher.matches optIns (histOfPairs ps1) deps = some ps2) :
    ∀ p ∈ ps1, p ∉ ps2 ∧ (p.2, p.1) ∉ ps2 := by
  intro p hp
  have hlt1 : emailLt p.1 p.2 := matches_lt optIns hist1 deps ps1 hnd h1 p hp
  have hfst : (ps1.map Prod.fst).Nodup := matches_fst_nodup optIns hist1 deps ps1 hnd h1
  constructor
  · intro hin
    have hsound := (matches_pairs_sound optIns (histOfPairs ps1) deps ps2 h2 p hin).2.1
    have hget : histGet (histOfPairs ps1) p.1 = [p.2] :=
      histGet_histOfPairs ps1 p.1 p.2 hfst hp
    rw [hget] at hsound
    exact hsound (List.mem_singleton.mpr rfl)
  · intro hin
    have hlt2 := matches_lt optIns (histOfPairs ps1) deps ps2 hnd h2 (p.2, p.1) hin
    exact emailLt_asymm hlt1 hlt2

theorem C9_round_trip_witness :
    ("a@x.com", "b@x.com") ∉ [("a@x.com", "c@x.com"), ("b@x.com", "d@x.com")] ∧
    ("b@x.com", "a@x.com") ∉ [("a@x.com", "c@x.com"), ("b@x.com", "d@x.com")] :=
  C9_round_trip ["a@x.com", "b@x.com", "c@x.com", "d@x.com"] []
    [("a@x.com", some "1"), ("b@x.com", some "2"), ("c@x.com", some "3"),
      ("d@x.com", some "4")]
    [("a@x.com", "b@x.com"), ("c@x.com", "d@x.com")]
    [("a@x.com", "c@x.com"), ("b@x.com", "d@x.com")]
    (by decide) (by decide) (by decide) ("a@x.com", "b@x.com") (by decide)
